import Mathlib

/-!
Verification of the BLAST-style seed-and-extend alignment pipeline
(`blast.py`): tokenizer (`create_list_of_words`), position filter
(`filter_positions`), Smith-Waterman scoring (`sw_scoring`) and traceback
(`smith_waterman`), and the ranking step (`sequence_alignment`).

Sequences are embedded as `List Char` (Python strings), positions as `Int`,
scores as `Int` (the Python floats produced by the scoring recurrence are
always integral: every stored value is built from the integer parameters by
`+`/`-`/`max`).

The memoized recursion `sw_scoring` always recurses with the default scoring
parameters (`gap_penalty=3, match=1, mismatch=-1`), and `smith_waterman`
invokes it with the defaults, so every matrix cell is computed with those
constants; the embedding fixes them accordingly.  The memo table is a pure
function of the two sequences, so the matrix contents are embedded as the
function `swD` (scores) and `swT` (traceback directions); a fuel argument
(`swDAux`) makes the recursion structural, with `swD s1 s2 i j`
instantiating the fuel at `i + j`, which is always sufficient.
-/

/-- Default gap penalty of `sw_scoring` (`gap_penalty=3`). -/
def gap_penalty : Int := 3

/-- Default match award of `sw_scoring` (`match=1`). -/
def match_award : Int := 1

/-- Default mismatch penalty of `sw_scoring` (`mismatch=-1`). -/
def mismatch_penalty : Int := -1

/-- The substitution score `match if s1[-1] == s2[-1] else mismatch`. -/
def matchScore (a b : Char) : Int :=
  if a = b then match_award else mismatch_penalty

/-- First index of the maximum among four values: `np.argmax([v0,v1,v2,v3])`
(numpy returns the first occurrence of the maximal value). -/
def argmax4 (v0 v1 v2 v3 : Int) : Nat :=
  if v1 ≤ v0 ∧ v2 ≤ v0 ∧ v3 ≤ v0 then 0
  else if v2 ≤ v1 ∧ v3 ≤ v1 then 1
  else if v3 ≤ v2 then 2
  else 3

/-- First index of the maximum among three values: `np.argmax([v0,v1,v2])`. -/
def argmax3 (v0 v1 v2 : Int) : Nat :=
  if v1 ≤ v0 ∧ v2 ≤ v0 then 0
  else if v2 ≤ v1 then 1
  else 2

/-- Fuel-indexed form of the `sw_scoring` score matrix `DP`:
`swDAux s1 s2 f i j` is `DP[i, j]` for the prefixes of lengths `i` and `j`,
computed with recursion depth at most `f`.  Mirrors
`vals = [0, val1, val2, val3]; DP[len(s1), len(s2)] = max(vals)` with
`val1 = DP[i-1,j-1] + (match if s1[i-1]==s2[j-1] else mismatch)`,
`val2 = DP[i,j-1] - gap_penalty`, `val3 = DP[i-1,j] - gap_penalty`, and the
base case `DP[i,0] = DP[0,j] = 0`.  Any fuel `f ≥ i + j` yields the matrix
value (`swDAux_fuel_irrel`). -/
def swDAux (s1 s2 : List Char) : Nat → Nat → Nat → Int
  | 0, _, _ => 0
  | f + 1, i, j =>
    match i, j with
    | 0, _ => 0
    | _ + 1, 0 => 0
    | i + 1, j + 1 =>
      max 0 (max (swDAux s1 s2 f i j + matchScore (s1.getD i 'A') (s2.getD j 'A'))
        (max (swDAux s1 s2 f (i + 1) j - gap_penalty)
          (swDAux s1 s2 f i (j + 1) - gap_penalty)))

/-- The `sw_scoring` score matrix: `swD s1 s2 i j = DP[i, j]`. -/
def swD (s1 s2 : List Char) (i j : Nat) : Int :=
  swDAux s1 s2 (i + j) i j

/-- The `sw_scoring` traceback matrix:
`swT s1 s2 i j = TM[i, j] = np.argmax([0, val1, val2, val3])`
(borders are initialized to 0). -/
def swT (s1 s2 : List Char) (i j : Nat) : Nat :=
  match i, j with
  | 0, _ => 0
  | _ + 1, 0 => 0
  | i + 1, j + 1 =>
    argmax4 0 (swD s1 s2 i j + matchScore (s1.getD i 'A') (s2.getD j 'A'))
      (swD s1 s2 (i + 1) j - gap_penalty) (swD s1 s2 i (j + 1) - gap_penalty)

/-- Fuel-indexed embedding of the `smith_waterman` traceback loop.
`tbAux s1 s2 f i j = (subs1, subs2, final pointer)` where `subs1`/`subs2`
are the emitted characters in emission order (the Python code appends to the
right of each string and reverses at the end) starting from `pointer=(i,j)`.
One loop iteration: while `DP[pointer] != 0`, compute
`ind = np.argmax([DP[i-1,j-1], DP[i,j-1], DP[i-1,j]])` and move diagonally
(`ind=0`, emitting `s1[i-1]`/`s2[j-1]`), left (`ind=1`, emitting
`'-'`/`s2[j-1]`), or up (`ind=2`, emitting `s1[i-1]`/`'-'`).  The branches
for a zero coordinate are unreachable (there `DP = 0`); any fuel
`f ≥ i + j` yields the loop's result (`tbAux_fuel_irrel`). -/
def tbAux (s1 s2 : List Char) : Nat → Nat → Nat → List Char × List Char × Nat × Nat
  | 0, i, j => ([], [], i, j)
  | f + 1, i, j =>
    if swD s1 s2 i j = 0 then ([], [], i, j)
    else
      match i, j with
      | 0, j => ([], [], 0, j)
      | i + 1, 0 => ([], [], i + 1, 0)
      | i + 1, j + 1 =>
        let ind := argmax3 (swD s1 s2 i j) (swD s1 s2 (i + 1) j) (swD s1 s2 i (j + 1))
        if ind = 0 then
          let r := tbAux s1 s2 f i j
          (s1.getD i 'A' :: r.1, s2.getD j 'A' :: r.2.1, r.2.2)
        else if ind = 1 then
          let r := tbAux s1 s2 f (i + 1) j
          ('-' :: r.1, s2.getD j 'A' :: r.2.1, r.2.2)
        else
          let r := tbAux s1 s2 f i (j + 1)
          (s1.getD i 'A' :: r.1, '-' :: r.2.1, r.2.2)

/-- The `smith_waterman` traceback loop started at `pointer = (i, j)`. -/
def swTraceback (s1 s2 : List Char) (i j : Nat) : List Char × List Char × Nat × Nat :=
  tbAux s1 s2 (i + j) i j

/-- All matrix cells `(i, j)`, `0 ≤ i ≤ n`, `0 ≤ j ≤ m`, in row-major order
(increasing `i`, then increasing `j`) — the order in which
`np.nanargmax(DP, axis=None)` scans the flattened matrix. -/
def rowMajorCells (n m : Nat) : List (Nat × Nat) :=
  (List.range (n + 1)).flatMap (fun i => (List.range (m + 1)).map (fun j => (i, j)))

/-- `np.unravel_index(np.nanargmax(DP, axis=None), DP.shape)`: the first
cell, in row-major order, attaining the maximal matrix value (after
`sw_scoring` the matrix has no NaN entries left). -/
def bestCell (s1 s2 : List Char) : Nat × Nat :=
  (rowMajorCells s1.length s2.length).foldl
    (fun best c => if swD s1 s2 best.1 best.2 < swD s1 s2 c.1 c.2 then c else best)
    (0, 0)

/-- Embedding of `smith_waterman(s1, s2)`: fill the matrices, point at the
maximal cell, run the traceback loop, reverse both accumulated strings, and
return them with the best score. -/
def smith_waterman (s1 s2 : List Char) : (List Char × List Char) × Int :=
  let p := bestCell s1 s2
  let r := swTraceback s1 s2 p.1 p.2
  ((r.1.reverse, r.2.1.reverse), swD s1 s2 p.1 p.2)

/-- Embedding of `sequence_alignment(input_seq, sequences, positions)`:
build `(sequence, positions[counter], cost)` triples (the Python loop walks
`sequences` with an incrementing counter, i.e. zips the two lists) and sort
with `output.sort(key=lambda tup: tup[1], reverse=True)` — a stable sort by
the position component in descending order, embedded as a stable insertion
sort for the relation `b.position ≤ a.position`. -/
def sequence_alignment (input_seq : List Char) (sequences : List (List Char))
    (positions : List Int) : List (List Char × Int × Int) :=
  let output := (List.zip sequences positions).map
    (fun sp => (sp.1, sp.2, (smith_waterman input_seq sp.1).2))
  List.insertionSort (fun a b => b.2.1 ≤ a.2.1) output

/-- Embedding of `create_list_of_words(input_seq)`: `none` models the
`assert len(input_seq) >= 11` failure (`InvalidInput`); a length-11 input
returns itself as the only word; otherwise the words are the slices
`input_seq[i:i+11]` for `i in range(len(input_seq)-10)`. -/
def create_list_of_words (input_seq : List Char) : Option (List (List Char)) :=
  if input_seq.length < 11 then none
  else if input_seq.length = 11 then some [input_seq]
  else some ((List.range (input_seq.length - 10)).map
    (fun i => (input_seq.drop i).take 11))

/-- Python's `positions.sort()`: a stable ascending sort of the list,
embedded as insertion sort (extensionally the same function: the stable
sorted permutation of the input). -/
def sortInts (l : List Int) : List Int :=
  List.insertionSort (fun a b => a ≤ b) l

/-- Embedding of `filter_positions(positions)`: sort, then scan once with
`index` initialized to `-gap_length - 1 = -2` (the local constant
`gap_length = 1` is inlined), appending `positions[i]` to the output iff
`positions[i] > index + gap_length`, and setting `index = positions[i]`
after every element (kept or not). -/
def filter_positions (positions : List Int) : List Int :=
  ((sortInts positions).foldl
    (fun st p => (if st.2 + 1 < p then st.1 ++ [p] else st.1, p))
    (([] : List Int), -2)).1

/-- The position-filter scan as the specification describes it: walk the
sorted list keeping a position iff it is strictly greater than the last
scanned position plus one, updating the last scanned position each step. -/
def specScan : List Int → Int → List Int
  | [], _ => []
  | p :: rest, last => if last + 1 < p then p :: specScan rest p else specScan rest p

/-- State-passing model of a call `filter_positions(positions)` on a caller
owned list: the first component is the returned list, the second is the
contents of the caller's list after the call (`positions.sort()` mutates the
argument in place, leaving it sorted ascending). -/
def filter_positions_state (positions : List Int) : List Int × List Int :=
  (filter_positions positions, sortInts positions)

/-! ### Basic facts about the scoring matrix -/

/-- The fuel argument of `swDAux` is irrelevant once it covers `i + j`. -/
theorem swDAux_fuel_irrel (s1 s2 : List Char) :
    ∀ f g i j, i + j ≤ f → i + j ≤ g → swDAux s1 s2 f i j = swDAux s1 s2 g i j := by
  intro f
  induction f with
  | zero =>
    intro g i j hf hg
    have hi : i = 0 := by omega
    subst hi
    cases g <;> simp [swDAux]
  | succ f ih =>
    intro g i j hf hg
    match i, j with
    | 0, j => cases g <;> simp [swDAux]
    | i + 1, 0 => cases g <;> simp [swDAux]
    | i + 1, j + 1 =>
      match g, hg with
      | g + 1, hg =>
        simp only [swDAux]
        rw [ih g i j (by omega) (by omega), ih g (i + 1) j (by omega) (by omega),
          ih g i (j + 1) (by omega) (by omega)]

/-- Top border of the score matrix is zero. -/
theorem swD_zero_left (s1 s2 : List Char) (j : Nat) : swD s1 s2 0 j = 0 := by
  cases j <;> simp [swD, swDAux]

/-- Left border of the score matrix is zero. -/
theorem swD_zero_right (s1 s2 : List Char) (i : Nat) : swD s1 s2 i 0 = 0 := by
  cases i <;> simp [swD, swDAux]

/-- One unfolding step of `swDAux` at successor fuel and successor indices. -/
theorem swDAux_succ_succ (s1 s2 : List Char) (f i j : Nat) :
    swDAux s1 s2 (f + 1) (i + 1) (j + 1) =
      max 0 (max (swDAux s1 s2 f i j + matchScore (s1.getD i 'A') (s2.getD j 'A'))
        (max (swDAux s1 s2 f (i + 1) j - gap_penalty)
          (swDAux s1 s2 f i (j + 1) - gap_penalty))) := rfl

/-- The scoring recurrence of `sw_scoring`, in terms of `swD`. -/
theorem swD_succ (s1 s2 : List Char) (i j : Nat) :
    swD s1 s2 (i + 1) (j + 1) =
      max 0 (max (swD s1 s2 i j + matchScore (s1.getD i 'A') (s2.getD j 'A'))
        (max (swD s1 s2 (i + 1) j - gap_penalty)
          (swD s1 s2 i (j + 1) - gap_penalty))) := by
  show swDAux s1 s2 ((i + 1 + j) + 1) (i + 1) (j + 1) = _
  rw [swDAux_succ_succ,
    swDAux_fuel_irrel s1 s2 (i + 1 + j) (i + j) i j (by omega) (by omega),
    swDAux_fuel_irrel s1 s2 (i + 1 + j) (i + (j + 1)) i (j + 1) (by omega) (by omega)]
  rfl

/-- Every value stored in the score matrix is nonnegative. -/
theorem swD_nonneg (s1 s2 : List Char) (i j : Nat) : 0 ≤ swD s1 s2 i j := by
  match i, j with
  | 0, j => rw [swD_zero_left]
  | i + 1, 0 => rw [swD_zero_right]
  | i + 1, j + 1 => rw [swD_succ]; exact le_max_left _ _

/-- The substitution score never exceeds the match award. -/
theorem matchScore_le_one (a b : Char) : matchScore a b ≤ 1 := by
  simp only [matchScore, match_award, mismatch_penalty]
  split <;> omega

/-- A cell of the score matrix is bounded by the length of the shorter prefix. -/
theorem swD_le_min (s1 s2 : List Char) (i j : Nat) :
    swD s1 s2 i j ≤ min (i : Int) (j : Int) := by
  have key : ∀ n i j : Nat, i + j ≤ n → swD s1 s2 i j ≤ min (i : Int) (j : Int) := by
    intro n
    induction n with
    | zero =>
      intro i j h
      have hi : i = 0 := by omega
      subst hi
      rw [swD_zero_left]
      simp
    | succ n ih =>
      intro i j h
      match i, j with
      | 0, j => rw [swD_zero_left]; simp
      | i + 1, 0 =>
        rw [swD_zero_right]
        have : (0 : Int) ≤ (i : Int) + 1 := by omega
        simp [this]
      | i + 1, j + 1 =>
        rw [swD_succ]
        have h1 := ih i j (by omega)
        have h2 := ih (i + 1) j (by omega)
        have h3 := ih i (j + 1) (by omega)
        have h4 := matchScore_le_one (s1.getD i 'A') (s2.getD j 'A')
        simp only [gap_penalty]
        push_cast at h1 h2 h3 ⊢
        omega
  exact key (i + j) i j le_rfl

/-- Aligning a sequence against itself: the diagonal of the score matrix
holds exactly the prefix length. -/
theorem swD_self_diag (s : List Char) (i : Nat) : swD s s i i = (i : Int) := by
  induction i with
  | zero => rw [swD_zero_left]; rfl
  | succ i ih =>
    rw [swD_succ, ih]
    have hm : matchScore (s.getD i 'A') (s.getD i 'A') = 1 := by
      simp [matchScore, match_award]
    have h2 := swD_le_min s s (i + 1) i
    have h3 := swD_le_min s s i (i + 1)
    rw [hm]
    simp only [gap_penalty]
    push_cast at h2 h3 ⊢
    omega

/-! ### Basic facts about the traceback loop -/

/-- `argmax3` only returns the indices 0, 1, 2. -/
theorem argmax3_lt (v0 v1 v2 : Int) : argmax3 v0 v1 v2 < 3 := by
  unfold argmax3
  split_ifs <;> omega

/-- `argmax3` picks the first entry when it is maximal. -/
theorem argmax3_eq_zero (v0 v1 v2 : Int) (h1 : v1 ≤ v0) (h2 : v2 ≤ v0) :
    argmax3 v0 v1 v2 = 0 := by
  unfold argmax3
  rw [if_pos ⟨h1, h2⟩]

/-- When the current cell's score is zero the loop body never runs. -/
theorem tbAux_of_zero (s1 s2 : List Char) (f i j : Nat) (h : swD s1 s2 i j = 0) :
    tbAux s1 s2 f i j = ([], [], i, j) := by
  cases f with
  | zero => rfl
  | succ f => simp [tbAux, h]

/-- One unfolding step of `tbAux` at successor fuel and successor indices. -/
theorem tbAux_succ_succ (s1 s2 : List Char) (f i j : Nat) :
    tbAux s1 s2 (f + 1) (i + 1) (j + 1) =
      if swD s1 s2 (i + 1) (j + 1) = 0 then ([], [], i + 1, j + 1)
      else if argmax3 (swD s1 s2 i j) (swD s1 s2 (i + 1) j) (swD s1 s2 i (j + 1)) = 0 then
        (s1.getD i 'A' :: (tbAux s1 s2 f i j).1,
          s2.getD j 'A' :: (tbAux s1 s2 f i j).2.1, (tbAux s1 s2 f i j).2.2)
      else if argmax3 (swD s1 s2 i j) (swD s1 s2 (i + 1) j) (swD s1 s2 i (j + 1)) = 1 then
        ('-' :: (tbAux s1 s2 f (i + 1) j).1,
          s2.getD j 'A' :: (tbAux s1 s2 f (i + 1) j).2.1, (tbAux s1 s2 f (i + 1) j).2.2)
      else
        (s1.getD i 'A' :: (tbAux s1 s2 f i (j + 1)).1,
          '-' :: (tbAux s1 s2 f i (j + 1)).2.1, (tbAux s1 s2 f i (j + 1)).2.2) := rfl

/-- The fuel argument of `tbAux` is irrelevant once it covers `i + j`. -/
theorem tbAux_fuel_irrel (s1 s2 : List Char) :
    ∀ f g i j, i + j ≤ f → i + j ≤ g → tbAux s1 s2 f i j = tbAux s1 s2 g i j := by
  intro f
  induction f with
  | zero =>
    intro g i j hf hg
    have hi : i = 0 := by omega
    have hj : j = 0 := by omega
    subst hi; subst hj
    rw [tbAux_of_zero s1 s2 g 0 0 (swD_zero_left s1 s2 0)]
    rfl
  | succ f ih =>
    intro g i j hf hg
    by_cases hD : swD s1 s2 i j = 0
    · rw [tbAux_of_zero s1 s2 _ _ _ hD, tbAux_of_zero s1 s2 _ _ _ hD]
    · match i, j with
      | 0, j => exact absurd (swD_zero_left s1 s2 j) hD
      | i + 1, 0 => exact absurd (swD_zero_right s1 s2 (i + 1)) hD
      | i + 1, j + 1 =>
        match g, hg with
        | g + 1, hg =>
          rw [tbAux_succ_succ, tbAux_succ_succ, if_neg hD, if_neg hD,
            ih g i j (by omega) (by omega), ih g (i + 1) j (by omega) (by omega),
            ih g i (j + 1) (by omega) (by omega)]

/-- The traceback loop does not move from a zero-score cell. -/
theorem swTraceback_of_zero (s1 s2 : List Char) (i j : Nat) (h : swD s1 s2 i j = 0) :
    swTraceback s1 s2 i j = ([], [], i, j) :=
  tbAux_of_zero s1 s2 (i + j) i j h

/-- A diagonal traceback step (`ind == 0`): emit `s1[i-1]` and `s2[j-1]` and
move to `(i-1, j-1)`. -/
theorem swTraceback_diag (s1 s2 : List Char) (i j : Nat)
    (h : swD s1 s2 (i + 1) (j + 1) ≠ 0)
    (h0 : argmax3 (swD s1 s2 i j) (swD s1 s2 (i + 1) j) (swD s1 s2 i (j + 1)) = 0) :
    swTraceback s1 s2 (i + 1) (j + 1) =
      (s1.getD i 'A' :: (swTraceback s1 s2 i j).1,
        s2.getD j 'A' :: (swTraceback s1 s2 i j).2.1, (swTraceback s1 s2 i j).2.2) := by
  show tbAux s1 s2 ((i + 1 + j) + 1) (i + 1) (j + 1) = _
  rw [tbAux_succ_succ, if_neg h, if_pos h0,
    tbAux_fuel_irrel s1 s2 (i + 1 + j) (i + j) i j (by omega) (by omega)]
  rfl

/-- A leftward traceback step (`ind == 1`): emit a gap against `s1` and
`s2[j-1]` and move to `(i, j-1)`. -/
theorem swTraceback_left (s1 s2 : List Char) (i j : Nat)
    (h : swD s1 s2 (i + 1) (j + 1) ≠ 0)
    (h1 : argmax3 (swD s1 s2 i j) (swD s1 s2 (i + 1) j) (swD s1 s2 i (j + 1)) = 1) :
    swTraceback s1 s2 (i + 1) (j + 1) =
      ('-' :: (swTraceback s1 s2 (i + 1) j).1,
        s2.getD j 'A' :: (swTraceback s1 s2 (i + 1) j).2.1,
        (swTraceback s1 s2 (i + 1) j).2.2) := by
  show tbAux s1 s2 ((i + 1 + j) + 1) (i + 1) (j + 1) = _
  rw [tbAux_succ_succ, if_neg h, if_neg (by rw [h1]; omega), if_pos h1]
  rfl

/-- An upward traceback step (`ind == 2`): emit `s1[i-1]` and a gap against
`s2` and move to `(i-1, j)`. -/
theorem swTraceback_up (s1 s2 : List Char) (i j : Nat)
    (h : swD s1 s2 (i + 1) (j + 1) ≠ 0)
    (h2 : argmax3 (swD s1 s2 i j) (swD s1 s2 (i + 1) j) (swD s1 s2 i (j + 1)) = 2) :
    swTraceback s1 s2 (i + 1) (j + 1) =
      (s1.getD i 'A' :: (swTraceback s1 s2 i (j + 1)).1,
        '-' :: (swTraceback s1 s2 i (j + 1)).2.1,
        (swTraceback s1 s2 i (j + 1)).2.2) := by
  show tbAux s1 s2 ((i + 1 + j) + 1) (i + 1) (j + 1) = _
  rw [tbAux_succ_succ, if_neg h, if_neg (by rw [h2]; omega), if_neg (by rw [h2]; omega),
    tbAux_fuel_irrel s1 s2 (i + 1 + j) (i + (j + 1)) i (j + 1) (by omega) (by omega)]
  rfl

/-- The traceback loop, started anywhere in the matrix, stops at a cell of
score zero, after at most `i + j` iterations (each iteration emits exactly
one character into the first accumulated string). -/
theorem swTraceback_reaches_zero (s1 s2 : List Char) :
    ∀ n i j, i + j ≤ n →
      swD s1 s2 (swTraceback s1 s2 i j).2.2.1 (swTraceback s1 s2 i j).2.2.2 = 0 ∧
        (swTraceback s1 s2 i j).1.length ≤ i + j := by
  intro n
  induction n with
  | zero =>
    intro i j h
    have hi : i = 0 := by omega
    have hj : j = 0 := by omega
    subst hi; subst hj
    rw [swTraceback_of_zero s1 s2 0 0 (swD_zero_left s1 s2 0)]
    exact ⟨swD_zero_left s1 s2 0, by simp⟩
  | succ n ih =>
    intro i j h
    by_cases hD : swD s1 s2 i j = 0
    · rw [swTraceback_of_zero s1 s2 i j hD]
      exact ⟨hD, by simp⟩
    · match i, j with
      | 0, j => exact absurd (swD_zero_left s1 s2 j) hD
      | i + 1, 0 => exact absurd (swD_zero_right s1 s2 (i + 1)) hD
      | i + 1, j + 1 =>
        have h3 := argmax3_lt (swD s1 s2 i j) (swD s1 s2 (i + 1) j) (swD s1 s2 i (j + 1))
        have hcase : argmax3 (swD s1 s2 i j) (swD s1 s2 (i + 1) j) (swD s1 s2 i (j + 1)) = 0 ∨
            argmax3 (swD s1 s2 i j) (swD s1 s2 (i + 1) j) (swD s1 s2 i (j + 1)) = 1 ∨
            argmax3 (swD s1 s2 i j) (swD s1 s2 (i + 1) j) (swD s1 s2 i (j + 1)) = 2 := by
          omega
        rcases hcase with h0 | h1 | h2
        · rw [swTraceback_diag s1 s2 i j hD h0]
          obtain ⟨hA, hB⟩ := ih i j (by omega)
          exact ⟨hA, by simp only [List.length_cons]; omega⟩
        · rw [swTraceback_left s1 s2 i j hD h1]
          obtain ⟨hA, hB⟩ := ih (i + 1) j (by omega)
          exact ⟨hA, by simp only [List.length_cons]; omega⟩
        · rw [swTraceback_up s1 s2 i j hD h2]
          obtain ⟨hA, hB⟩ := ih i (j + 1) (by omega)
          exact ⟨hA, by simp only [List.length_cons]; omega⟩

/-! ### The best-cell scan -/

/-- A left fold that replaces the accumulator only on strict improvement
returns the first element attaining the maximum (or the initial accumulator
when nothing improves on it). -/
theorem foldl_firstMax {α : Type} (f : α → Int) (step : α → α → α)
    (hstep : ∀ b c, step b c = if f b < f c then c else b) :
    ∀ (l : List α) (b : α),
      (∀ c ∈ l, f c ≤ f (l.foldl step b)) ∧ f b ≤ f (l.foldl step b) ∧
        (l.foldl step b = b ∨ ∃ l1 l2, l = l1 ++ (l.foldl step b) :: l2 ∧
          f b < f (l.foldl step b) ∧ ∀ c ∈ l1, f c < f (l.foldl step b)) := by
  intro l
  induction l with
  | nil => exact fun b => ⟨by simp, le_rfl, Or.inl rfl⟩
  | cons c t ih =>
    intro b
    rw [List.foldl_cons, hstep]
    by_cases hbc : f b < f c
    · rw [if_pos hbc]
      obtain ⟨A, B, C⟩ := ih c
      refine ⟨?_, le_of_lt (lt_of_lt_of_le hbc B), Or.inr ?_⟩
      · intro x hx
        rcases List.mem_cons.mp hx with rfl | hx
        · exact B
        · exact A x hx
      · rcases C with h | ⟨l1, l2, heq, hlt, hall⟩
        · exact ⟨[], t, by rw [h]; rfl, by rw [h]; exact hbc, by simp⟩
        · refine ⟨c :: l1, l2, by rw [List.cons_append, ← heq], lt_trans hbc hlt, ?_⟩
          intro x hx
          rcases List.mem_cons.mp hx with rfl | hx
          · exact hlt
          · exact hall x hx
    · rw [if_neg hbc]
      obtain ⟨A, B, C⟩ := ih b
      refine ⟨?_, B, ?_⟩
      · intro x hx
        rcases List.mem_cons.mp hx with rfl | hx
        · exact le_trans (not_lt.mp hbc) B
        · exact A x hx
      · rcases C with h | ⟨l1, l2, heq, hlt, hall⟩
        · exact Or.inl h
        · refine Or.inr ⟨c :: l1, l2, by rw [List.cons_append, ← heq], hlt, ?_⟩
          intro x hx
          rcases List.mem_cons.mp hx with rfl | hx
          · exact lt_of_le_of_lt (not_lt.mp hbc) hlt
          · exact hall x hx

/-- Membership in the row-major cell enumeration is exactly being a cell of
the `(n+1) × (m+1)` matrix. -/
theorem mem_rowMajorCells {n m : Nat} {c : Nat × Nat} :
    c ∈ rowMajorCells n m ↔ c.1 ≤ n ∧ c.2 ≤ m := by
  obtain ⟨i, j⟩ := c
  simp [rowMajorCells, Nat.lt_succ_iff]

/-- The row-major enumeration starts at the cell `(0, 0)`. -/
theorem rowMajorCells_head (n m : Nat) :
    ∃ t, rowMajorCells n m = (0, 0) :: t := by
  rw [rowMajorCells, List.range_succ_eq_map, List.flatMap_cons, List.range_succ_eq_map,
    List.map_cons, List.cons_append]
  exact ⟨_, rfl⟩

/-- `bestCell` attains the maximal score over the whole matrix, and is the
first cell in row-major order to do so. -/
theorem bestCell_spec (s1 s2 : List Char) :
    (∀ c ∈ rowMajorCells s1.length s2.length,
        swD s1 s2 c.1 c.2 ≤ swD s1 s2 (bestCell s1 s2).1 (bestCell s1 s2).2) ∧
      ∃ l1 l2, rowMajorCells s1.length s2.length = l1 ++ bestCell s1 s2 :: l2 ∧
        ∀ c ∈ l1, swD s1 s2 c.1 c.2 < swD s1 s2 (bestCell s1 s2).1 (bestCell s1 s2).2 := by
  obtain ⟨A, B, C⟩ := foldl_firstMax (fun c : Nat × Nat => swD s1 s2 c.1 c.2)
    (fun best c => if swD s1 s2 best.1 best.2 < swD s1 s2 c.1 c.2 then c else best)
    (fun b c => rfl) (rowMajorCells s1.length s2.length) (0, 0)
  refine ⟨A, ?_⟩
  rcases C with h | ⟨l1, l2, heq, hlt, hall⟩
  · obtain ⟨t, ht⟩ := rowMajorCells_head s1.length s2.length
    refine ⟨[], t, ?_, by simp⟩
    show rowMajorCells s1.length s2.length = bestCell s1 s2 :: t
    rw [ht]
    exact congrArg (· :: t) (h.symm : (0, 0) = bestCell s1 s2)
  · exact ⟨l1, l2, heq, hall⟩

/-! ### Aligning a sequence with itself -/

/-- For a nonempty sequence the best cell of the self-alignment matrix is
the bottom-right corner. -/
theorem bestCell_self (s : List Char) (h : s ≠ []) :
    bestCell s s = (s.length, s.length) := by
  obtain ⟨A, l1, l2, heq, hlt⟩ := bestCell_spec s s
  have hn : 1 ≤ s.length := List.length_pos.mpr h
  have hmem : bestCell s s ∈ rowMajorCells s.length s.length := by
    rw [heq]
    simp
  obtain ⟨hb1, hb2⟩ := mem_rowMajorCells.mp hmem
  have hnn : (s.length, s.length) ∈ rowMajorCells s.length s.length :=
    mem_rowMajorCells.mpr ⟨le_rfl, le_rfl⟩
  have h1 : (s.length : Int) ≤ swD s s (bestCell s s).1 (bestCell s s).2 := by
    have := A (s.length, s.length) hnn
    rwa [swD_self_diag] at this
  have h2 := swD_le_min s s (bestCell s s).1 (bestCell s s).2
  have hb : (bestCell s s).1 = s.length ∧ (bestCell s s).2 = s.length := by
    constructor <;> omega
  exact Prod.ext hb.1 hb.2

/-- The self-alignment traceback from a diagonal cell walks straight up the
diagonal, emitting the first `i` symbols in reverse, down to `(0, 0)`. -/
theorem swTraceback_self (s : List Char) :
    ∀ i, i ≤ s.length → swTraceback s s i i = ((s.take i).reverse, (s.take i).reverse, 0, 0) := by
  intro i
  induction i with
  | zero =>
    intro h
    rw [swTraceback_of_zero s s 0 0 (swD_zero_left s s 0)]
    simp
  | succ i ih =>
    intro h
    have hD : swD s s (i + 1) (i + 1) ≠ 0 := by
      rw [swD_self_diag]
      intro hcon
      omega
    have h1 := swD_le_min s s (i + 1) i
    have h2 := swD_le_min s s i (i + 1)
    have h0 : argmax3 (swD s s i i) (swD s s (i + 1) i) (swD s s i (i + 1)) = 0 := by
      apply argmax3_eq_zero
      · rw [swD_self_diag]
        push_cast at h1 ⊢
        omega
      · rw [swD_self_diag]
        push_cast at h2 ⊢
        omega
    rw [swTraceback_diag s s i i hD h0, ih (by omega)]
    have hi : i < s.length := by omega
    have htake : (s.take (i + 1)).reverse = s.getD i 'A' :: (s.take i).reverse := by
      have hgd : s.getD i 'A' = s[i] := List.getD_eq_getElem s 'A' hi
      rw [List.take_succ, List.getElem?_eq_getElem hi, hgd]
      simp
    rw [htake]

/-! ### Facts about the position filter -/

/-- The fold in `filter_positions` is the specification's single scan. -/
theorem filter_foldl_eq_specScan :
    ∀ (l : List Int) (acc : List Int) (idx : Int),
      (l.foldl (fun st p => (if st.2 + 1 < p then st.1 ++ [p] else st.1, p))
        (acc, idx)).1 = acc ++ specScan l idx := by
  intro l
  induction l with
  | nil =>
    intro acc idx
    simp [specScan]
  | cons p rest ih =>
    intro acc idx
    simp only [List.foldl_cons, specScan]
    by_cases hp : idx + 1 < p
    · rw [if_pos hp, if_pos hp, ih, List.append_assoc]
      rfl
    · rw [if_neg hp, if_neg hp, ih]

/-- `filter_positions` equals the sorted single scan with `index = -2`. -/
theorem filter_positions_eq_specScan (p : List Int) :
    filter_positions p = specScan (sortInts p) (-2) := by
  unfold filter_positions
  rw [filter_foldl_eq_specScan]
  rfl

/-- Every kept position was scanned. -/
theorem specScan_subset : ∀ (l : List Int) (idx : Int), specScan l idx ⊆ l := by
  intro l
  induction l with
  | nil => intro idx; simp [specScan]
  | cons p rest ih =>
    intro idx
    simp only [specScan]
    by_cases hp : idx + 1 < p
    · rw [if_pos hp]
      intro y hy
      rcases List.mem_cons.mp hy with rfl | hy
      · exact List.mem_cons_self _ _
      · exact List.mem_cons_of_mem _ (ih p hy)
    · rw [if_neg hp]
      intro y hy
      exact List.mem_cons_of_mem _ (ih p hy)

/-- If every scanned element is at least `a` and the running index starts at
least at `a`, then every kept element exceeds `a + 1`. -/
theorem specScan_gt :
    ∀ (l : List Int) (a idx : Int), (∀ x ∈ l, a ≤ x) → a ≤ idx →
      ∀ y ∈ specScan l idx, a + 1 < y := by
  intro l
  induction l with
  | nil => intro a idx _ _ y hy; simp [specScan] at hy
  | cons p rest ih =>
    intro a idx hall hidx y hy
    have hap : a ≤ p := hall p (List.mem_cons_self _ _)
    have hrest : ∀ x ∈ rest, a ≤ x := fun x hx => hall x (List.mem_cons_of_mem _ hx)
    simp only [specScan] at hy
    by_cases hp : idx + 1 < p
    · rw [if_pos hp] at hy
      rcases List.mem_cons.mp hy with rfl | hy
      · omega
      · exact ih a p hrest hap y hy
    · rw [if_neg hp] at hy
      exact ih a p hrest hap y hy

/-- Scanning a sorted list leaves consecutive kept positions more than one
apart. -/
theorem specScan_chain :
    ∀ (l : List Int) (idx : Int), l.Sorted (· ≤ ·) →
      List.Chain' (fun a b => a + 1 < b) (specScan l idx) := by
  intro l
  induction l with
  | nil => intro idx _; simp [specScan]
  | cons p rest ih =>
    intro idx hs
    obtain ⟨hall, hrest⟩ := List.sorted_cons.mp hs
    simp only [specScan]
    by_cases hp : idx + 1 < p
    · rw [if_pos hp]
      refine List.chain'_cons'.mpr ⟨?_, ih p hrest⟩
      intro y hy
      exact specScan_gt rest p p hall le_rfl y (List.mem_of_mem_head? hy)
    · rw [if_neg hp]
      exact ih p hrest

/-- A chain with gaps greater than one is in particular sorted. -/
theorem chain_gap_sorted (l : List Int) (h : List.Chain' (fun a b => a + 1 < b) l) :
    l.Sorted (· ≤ ·) := by
  have h2 : List.Chain' (· < ·) l := List.Chain'.imp (fun a b hab => by omega) h
  exact (List.chain'_iff_pairwise.mp h2).imp le_of_lt

/-- Scanning a list whose consecutive elements are more than one apart,
starting below its head, keeps everything. -/
theorem specScan_of_chain :
    ∀ (l : List Int) (idx : Int), List.Chain' (fun a b => a + 1 < b) l →
      (∀ h ∈ l.head?, idx + 1 < h) → specScan l idx = l := by
  intro l
  induction l with
  | nil => intro idx _ _; rfl
  | cons p rest ih =>
    intro idx hchain hhead
    have hp : idx + 1 < p := hhead p rfl
    obtain ⟨hph, hrest⟩ := List.chain'_cons'.mp hchain
    simp only [specScan, if_pos hp]
    rw [ih p hrest hph]

/-- `sortInts` sorts. -/
theorem sortInts_sorted (l : List Int) : (sortInts l).Sorted (· ≤ ·) :=
  List.sorted_insertionSort _ l

/-- `sortInts` permutes. -/
theorem sortInts_perm (l : List Int) : (sortInts l).Perm l :=
  List.perm_insertionSort _ l

/-- `sortInts` fixes sorted lists. -/
theorem sortInts_eq_self {l : List Int} (h : l.Sorted (· ≤ ·)) : sortInts l = l :=
  List.Sorted.insertionSort_eq h

/-- `argmax4` returns an index below 4, its entry is maximal among the four
values, and every entry at a smaller index is strictly below it (first
maximal wins, in the order `v0 < v1 < v2 < v3`). -/
theorem argmax4_spec (v0 v1 v2 v3 : Int) :
    argmax4 v0 v1 v2 v3 < 4 ∧
      (∀ k < 4, [v0, v1, v2, v3].getD k 0 ≤ [v0, v1, v2, v3].getD (argmax4 v0 v1 v2 v3) 0) ∧
      (∀ k < argmax4 v0 v1 v2 v3,
        [v0, v1, v2, v3].getD k 0 < [v0, v1, v2, v3].getD (argmax4 v0 v1 v2 v3) 0) := by
  unfold argmax4
  split_ifs with h0 h1 h2 <;> refine ⟨by omega, ?_, ?_⟩ <;> intro k hk <;>
    interval_cases k <;> simp_all [List.getD] <;> omega

/-! ### Claims -/

/-- C1 (code bug evidence): the ranking step sorts the `(sequence, position,
score)` triples by *position*, descending, and returns all of them — not by
descending score with ascending-offset tie-break and a top-5 cut.  On three
candidates with scores 1, 3, 2 at offsets 10, 20, 30 the code returns the
offsets in the order 30, 20, 10, so the scores come back in the order
2, 3, 1 rather than 3, 2, 1. -/
theorem sequence_alignment_sorts_by_position_desc :
    sequence_alignment ['a', 'b', 'c'] [['c'], ['a', 'b', 'c'], ['b', 'c']] [10, 20, 30] =
      [(['b', 'c'], 30, 2), (['a', 'b', 'c'], 20, 3), (['c'], 10, 1)] := by
  set_option maxRecDepth 4096 in decide

/-- C2 (code bug evidence): the traceback moves to the neighbor with the
largest matrix value, not to the neighbor that produced the current cell's
score.  For `s1 = "ab"`, `s2 = "aab"`, the cell `(1, 2)` has score 1,
produced by the diagonal neighbor `D[0,1] = 0` plus a match; the claim's
rule would emit the matched pair and return `("ab", "ab")`, but the code
compares the raw neighbor values `[0, 1, 0]`, takes the left gap step, and
returns the alignment `("a-b", "aab")` — whose own additive score is
`1 - 3 + 1 = -1`, not the reported 2. -/
theorem smith_waterman_traceback_argmax_divergence :
    smith_waterman ['a', 'b'] ['a', 'a', 'b'] = ((['a', '-', 'b'], ['a', 'a', 'b']), 2) := by
  decide

/-- C4: `create_list_of_words` fails (`InvalidInput`) on sequences shorter
than `k = 11`; returns the single-element list `[seq]` at length exactly 11;
and otherwise returns the `len(seq) - 11 + 1` overlapping length-11
substrings in left-to-right order (the `i`-th word is `seq[i:i+11]`). -/
theorem create_list_of_words_spec (s : List Char) :
    (s.length < 11 → create_list_of_words s = none) ∧
      (s.length = 11 → create_list_of_words s = some [s]) ∧
      (11 < s.length → ∃ ws, create_list_of_words s = some ws ∧
        ws.length = s.length - 11 + 1 ∧
        ∀ i (hlt : i < ws.length), ws.get ⟨i, hlt⟩ = (s.drop i).take 11 ∧
          (ws.get ⟨i, hlt⟩).length = 11) := by
  refine ⟨?_, ?_, ?_⟩
  · intro h
    simp [create_list_of_words, h]
  · intro h
    simp [create_list_of_words, h]
  · intro h
    refine ⟨(List.range (s.length - 10)).map (fun i => (s.drop i).take 11), ?_, ?_, ?_⟩
    · unfold create_list_of_words
      rw [if_neg (by omega), if_neg (by omega)]
    · simp only [List.length_map, List.length_range]
      omega
    · intro i hlt
      have hi : i < s.length - 10 := by simpa using hlt
      constructor
      · simp [List.get_eq_getElem]
      · simp only [List.get_eq_getElem, List.getElem_map, List.getElem_range,
          List.length_take, List.length_drop]
        omega

/-- Witness for C4 at concrete inputs of lengths 5, 11 and 12. -/
theorem create_list_of_words_witness :
    create_list_of_words ['g', 'a', 't', 't', 'a'] = none ∧
      create_list_of_words ['g', 'a', 't', 't', 'a', 'c', 'a', 'g', 'a', 't', 't'] =
        some [['g', 'a', 't', 't', 'a', 'c', 'a', 'g', 'a', 't', 't']] ∧
      create_list_of_words ['g', 'a', 't', 't', 'a', 'c', 'a', 'g', 'a', 't', 't', 'a'] ≠
        none := by
  refine ⟨(create_list_of_words_spec _).1 (by decide),
    (create_list_of_words_spec _).2.1 (by decide), ?_⟩
  obtain ⟨ws, hws, -, -⟩ := (create_list_of_words_spec
    ['g', 'a', 't', 't', 'a', 'c', 'a', 'g', 'a', 't', 't', 'a']).2.2 (by decide)
  simp [hws]

/-- C5: `filter_positions` sorts ascending and scans once, keeping a
position iff it is strictly greater than the last scanned position plus
one (with the running value initialized to `-2` and updated to every
scanned position, kept or not); on `[5, 6, 7, 20, 21, 50]` it yields
`[5, 20, 50]`. -/
theorem filter_positions_scan_spec :
    (∀ p : List Int, filter_positions p = specScan (sortInts p) (-2)) ∧
      filter_positions [5, 6, 7, 20, 21, 50] = [5, 20, 50] :=
  ⟨filter_positions_eq_specScan, by decide⟩

/-- C3: the score matrix has zero base row and column; every interior cell
`(i, j)` with `1 ≤ i ≤ |s1|`, `1 ≤ j ≤ |s2|` satisfies the local-alignment
recurrence `D[i,j] = max(0, D[i-1,j-1] + (match or mismatch),
D[i,j-1] - gap_penalty, D[i-1,j] - gap_penalty)`; the traceback matrix
records the first maximal alternative in the fixed order stay-at-zero,
diagonal, left, up; and every stored value is nonnegative. -/
theorem sw_scoring_recurrence_spec (s1 s2 : List Char) (i j : Nat)
    (hi1 : 1 ≤ i) (hi2 : i ≤ s1.length) (hj1 : 1 ≤ j) (hj2 : j ≤ s2.length) :
    swD s1 s2 i 0 = 0 ∧ swD s1 s2 0 j = 0 ∧
      swD s1 s2 i j = max 0 (max
        (swD s1 s2 (i - 1) (j - 1) + matchScore (s1.getD (i - 1) 'A') (s2.getD (j - 1) 'A'))
        (max (swD s1 s2 i (j - 1) - gap_penalty) (swD s1 s2 (i - 1) j - gap_penalty))) ∧
      0 ≤ swD s1 s2 i j ∧
      swT s1 s2 i j < 4 ∧
      (∀ k < 4,
        [0, swD s1 s2 (i - 1) (j - 1) + matchScore (s1.getD (i - 1) 'A') (s2.getD (j - 1) 'A'),
          swD s1 s2 i (j - 1) - gap_penalty, swD s1 s2 (i - 1) j - gap_penalty].getD k 0 ≤
        [0, swD s1 s2 (i - 1) (j - 1) + matchScore (s1.getD (i - 1) 'A') (s2.getD (j - 1) 'A'),
          swD s1 s2 i (j - 1) - gap_penalty,
          swD s1 s2 (i - 1) j - gap_penalty].getD (swT s1 s2 i j) 0) ∧
      (∀ k < swT s1 s2 i j,
        [0, swD s1 s2 (i - 1) (j - 1) + matchScore (s1.getD (i - 1) 'A') (s2.getD (j - 1) 'A'),
          swD s1 s2 i (j - 1) - gap_penalty, swD s1 s2 (i - 1) j - gap_penalty].getD k 0 <
        [0, swD s1 s2 (i - 1) (j - 1) + matchScore (s1.getD (i - 1) 'A') (s2.getD (j - 1) 'A'),
          swD s1 s2 i (j - 1) - gap_penalty,
          swD s1 s2 (i - 1) j - gap_penalty].getD (swT s1 s2 i j) 0) := by
  obtain ⟨i, rfl⟩ : ∃ n, i = n + 1 := ⟨i - 1, by omega⟩
  obtain ⟨j, rfl⟩ : ∃ n, j = n + 1 := ⟨j - 1, by omega⟩
  simp only [Nat.add_sub_cancel]
  obtain ⟨hlt, hmax, hfirst⟩ := argmax4_spec 0
    (swD s1 s2 i j + matchScore (s1.getD i 'A') (s2.getD j 'A'))
    (swD s1 s2 (i + 1) j - gap_penalty) (swD s1 s2 i (j + 1) - gap_penalty)
  exact ⟨swD_zero_right s1 s2 (i + 1), swD_zero_left s1 s2 (j + 1), swD_succ s1 s2 i j,
    swD_nonneg s1 s2 (i + 1) (j + 1), hlt, hmax, hfirst⟩

/-- Witness for C3 at `s1 = ['g']`, `s2 = ['t']`, `i = j = 1`. -/
theorem sw_scoring_recurrence_witness :
    swD ['g'] ['t'] 1 1 = max 0 (max (swD ['g'] ['t'] 0 0 + matchScore 'g' 't')
        (max (swD ['g'] ['t'] 1 0 - gap_penalty) (swD ['g'] ['t'] 0 1 - gap_penalty))) ∧
      0 ≤ swD ['g'] ['t'] 1 1 ∧ swT ['g'] ['t'] 1 1 < 4 := by
  have h := sw_scoring_recurrence_spec ['g'] ['t'] 1 1 (by decide) (by decide) (by decide)
    (by decide)
  exact ⟨h.2.2.1, h.2.2.2.1, h.2.2.2.2.1⟩

/-- C6 counterexample: on integer positions that may be negative the filter
is not idempotent — `filter_positions [-10, -5] = [-5]` (the first scanned
element `-10` is dropped because `-10 > -2 + 1` fails, but it drags `index`
down so `-5` is kept), while re-filtering `[-5]` drops everything. -/
theorem filter_positions_not_idempotent :
    filter_positions (filter_positions [-10, -5]) ≠ filter_positions [-10, -5] := by
  decide

/-- C6 amended: restricted to lists of nonnegative positions (every actual
database offset is nonnegative, and the scan's initialization `-2` sits
below any such offset), the filter is idempotent. -/
theorem filter_positions_idempotent_nonneg (p : List Int) (h : ∀ x ∈ p, 0 ≤ x) :
    filter_positions (filter_positions p) = filter_positions p := by
  rw [filter_positions_eq_specScan p]
  have hchain := specScan_chain (sortInts p) (-2) (sortInts_sorted p)
  have hsorted := chain_gap_sorted _ hchain
  rw [filter_positions_eq_specScan _, sortInts_eq_self hsorted]
  apply specScan_of_chain _ _ hchain
  intro hd hhd
  have h1 : hd ∈ specScan (sortInts p) (-2) := List.mem_of_mem_head? hhd
  have h2 : hd ∈ sortInts p := specScan_subset _ _ h1
  have h3 : hd ∈ p := (sortInts_perm p).mem_iff.mp h2
  have := h hd h3
  omega

/-- Witness for the amended C6 on the nonnegative list `[5,6,7,20,21,50]`. -/
theorem filter_positions_idempotent_witness :
    (∀ x ∈ ([5, 6, 7, 20, 21, 50] : List Int), 0 ≤ x) ∧
      filter_positions (filter_positions [5, 6, 7, 20, 21, 50]) =
        filter_positions [5, 6, 7, 20, 21, 50] :=
  ⟨by decide, filter_positions_idempotent_nonneg _ (by decide)⟩

/-- C7: aligning a nonempty sequence with itself under the default scoring
parameters yields the score `len(s) * match = len(s)` and returns the
sequence itself on both sides of the alignment. -/
theorem smith_waterman_self (s : List Char) (h : s ≠ []) :
    smith_waterman s s = ((s, s), (s.length : Int)) := by
  simp only [smith_waterman, bestCell_self s h]
  rw [swTraceback_self s s.length le_rfl, swD_self_diag]
  simp

/-- Witness for C7 at `s = ['a', 'b']`. -/
theorem smith_waterman_self_witness :
    (['a', 'b'] : List Char) ≠ [] ∧
      smith_waterman ['a', 'b'] ['a', 'b'] = ((['a', 'b'], ['a', 'b']), 2) := by
  refine ⟨by decide, ?_⟩
  have h := smith_waterman_self ['a', 'b'] (by decide)
  simpa using h

/-- C8: the traceback start cell `bestCell` is the first cell, in row-major
order over the whole matrix, attaining the global maximum of `D`; the
returned score is the value of that cell, and the returned alignment is the
(reversed) traceback started there. -/
theorem smith_waterman_best_selection (s1 s2 : List Char) :
    (∃ l1 l2, rowMajorCells s1.length s2.length = l1 ++ bestCell s1 s2 :: l2 ∧
      ∀ c ∈ l1, swD s1 s2 c.1 c.2 < swD s1 s2 (bestCell s1 s2).1 (bestCell s1 s2).2) ∧
      (∀ c ∈ rowMajorCells s1.length s2.length,
        swD s1 s2 c.1 c.2 ≤ swD s1 s2 (bestCell s1 s2).1 (bestCell s1 s2).2) ∧
      (smith_waterman s1 s2).2 = swD s1 s2 (bestCell s1 s2).1 (bestCell s1 s2).2 ∧
      (smith_waterman s1 s2).1 =
        ((swTraceback s1 s2 (bestCell s1 s2).1 (bestCell s1 s2).2).1.reverse,
          (swTraceback s1 s2 (bestCell s1 s2).1 (bestCell s1 s2).2).2.1.reverse) := by
  obtain ⟨A, B⟩ := bestCell_spec s1 s2
  exact ⟨B, A, rfl, rfl⟩

/-- C9: the traceback loop terminates — from start cell `(i, j)` it runs at
most `i + j` iterations, each emitting exactly one symbol — and the cell at
which it stops has `D = 0`. -/
theorem smith_waterman_traceback_terminates (s1 s2 : List Char) :
    swD s1 s2 (swTraceback s1 s2 (bestCell s1 s2).1 (bestCell s1 s2).2).2.2.1
        (swTraceback s1 s2 (bestCell s1 s2).1 (bestCell s1 s2).2).2.2.2 = 0 ∧
      (swTraceback s1 s2 (bestCell s1 s2).1 (bestCell s1 s2).2).1.length ≤
        (bestCell s1 s2).1 + (bestCell s1 s2).2 :=
  swTraceback_reaches_zero s1 s2 ((bestCell s1 s2).1 + (bestCell s1 s2).2)
    (bestCell s1 s2).1 (bestCell s1 s2).2 le_rfl

/-- C10 counterexample: `filter_positions` does mutate its input —
`positions.sort()` sorts the caller's list in place.  Calling it on `[3, 1]`
leaves the caller's list as `[1, 3]`. -/
theorem filter_positions_mutates_input :
    (filter_positions_state [3, 1]).2 ≠ [3, 1] := by decide

/-- C10 amended: the call sorts the caller's list in place — afterwards the
list holds the same elements in ascending order — while the returned output
is a deterministic function of the input's elements. -/
theorem filter_positions_state_spec (p : List Int) :
    (filter_positions_state p).2.Perm p ∧
      (filter_positions_state p).2.Sorted (fun a b => a ≤ b) ∧
      (filter_positions_state p).1 = filter_positions p :=
  ⟨sortInts_perm p, sortInts_sorted p, rfl⟩

-- Concrete sanity checks of the embedding on small inputs.
example : create_list_of_words ("abcdefghijk".toList) = some ["abcdefghijk".toList] := by
  decide

example : filter_positions [5, 6, 7, 20, 21, 50] = [5, 20, 50] := by decide

example : filter_positions [-10, -5] = [-5] := by decide

example : filter_positions [-5] = [] := by decide

example : smith_waterman "ab".toList "aab".toList = (("a-b".toList, "aab".toList), 2) := by
  decide
